import Mathlib

/-!
Shallow embedding of the factordynamics/factors core: the point-in-time factor
computations (asset growth, short-term momentum), the cross-sectional
standardization engine (z-score, robust MAD, winsorize) and the factor
registry with its inner-join composition.

Modelling conventions, matching the Rust/Polars source:
* Panel values (f64 columns) are modelled as exact real numbers; a Polars
  missing value (null) is modelled as `none`.
* Dates are modelled as naturals: the source compares normalized ISO-8601
  date strings, whose lexicographic order coincides with chronological order,
  so any linearly ordered date type is faithful; naturals keep everything
  decidable.
* An IEEE nonfinite result (NaN or a signed infinity, e.g. from division by
  an exact zero) is recorded by the explicit result type `FRes` at the
  division site and collapsed to a missing value in the resulting panel
  column.  The division case split of `FRes` is the faithful IEEE behaviour
  for exact operands.
* Polars sorts with unspecified tie order (maintain_order is false in the
  source); the embedding refines this to a stable insertion sort.
* Hash-map iteration order (registry, group-by) is unspecified in the
  source; the registry is modelled as a list of factors in iteration order,
  group keys are enumerated by deduplication.
-/

namespace Factors

/-- Input panel row.  The source panel is a Polars DataFrame; the factors
under study read the columns symbol, date, total_assets and close. -/
structure Row where
  symbol : String
  date : ℕ
  total_assets : Option ℝ
  close : Option ℝ

/-- Input panel: rows plus the presence of the numeric columns the embedded
factors require (polars raises a column-not-found error for an absent
column, which is how compute_raw fails in the source). -/
structure Panel where
  hasTotalAssets : Bool
  hasClose : Bool
  rows : List Row

/-- Single-factor result row: symbol, date and the factor value column. -/
structure FRow where
  symbol : String
  date : ℕ
  value : Option ℝ

/-- Single-factor result panel: the name of the value column (the factor
name in the source) together with the rows. -/
structure FPanel where
  colName : String
  rows : List FRow

/-- Error taxonomy of the source, crates/fd-factors/src/error.rs. -/
inductive FactorError where
  | MissingColumn (c : String)
  | InsufficientData (required available : ℕ)
  | InvalidDateRange (startDate endDate : String)
  | Polars (msg : String)
  | NotFound (name : String)
  | Computation (msg : String)
deriving DecidableEq

/-- Result of an IEEE float division with exact operands: a finite value,
NaN (0/0), or a signed infinity (nonzero/0). -/
inductive FRes where
  | val (x : ℝ)
  | nan
  | pinf
  | ninf
  | null

/-- IEEE division of exact finite operands. -/
noncomputable def ieeeDivRes (c s : ℝ) : FRes :=
  if s = 0 then (if c = 0 then .nan else if 0 < c then .pinf else .ninf)
  else .val (c / s)

/-- Collapse a division result into a panel cell: nonfinite results are
recorded as missing. -/
def FRes.toOpt : FRes → Option ℝ
  | .val x => some x
  | _ => none

/-- Non-null values of a list of cells, in order (Polars aggregations skip
nulls). -/
def someVals (rows : List FRow) : List ℝ :=
  rows.filterMap (fun r => r.value)

/-- Mean of a column, null when there are no observations (Polars mean). -/
noncomputable def meanList (xs : List ℝ) : Option ℝ :=
  if xs.length = 0 then none else some (xs.sum / xs.length)

/-- Sample variance with the N-1 denominator, null when fewer than two
observations are available (Polars var with ddof 1). -/
noncomputable def sampleVar (xs : List ℝ) : Option ℝ :=
  if xs.length < 2 then none
  else some (((xs.map (fun x => (x - xs.sum / xs.length) ^ 2)).sum) / ((xs.length : ℝ) - 1))

/-- Sample standard deviation, the square root of `sampleVar` (Polars std
with ddof 1). -/
noncomputable def sampleStd (xs : List ℝ) : Option ℝ :=
  (sampleVar xs).map Real.sqrt

/-- Division step of the z-score: null operands propagate, otherwise IEEE
division. -/
noncomputable def zRes (x μ σ : Option ℝ) : FRes :=
  match x, μ, σ with
  | some x, some μ, some σ => ieeeDivRes (x - μ) σ
  | _, _, _ => .null

/-- Z-score division result of one row against its own date
cross-section: centered value over the per-date sample standard deviation
(the expression centered / std_dev of the source, line 37). -/
noncomputable def zscoreRes (rows : List FRow) (r : FRow) : FRes :=
  let grp := someVals (rows.filter (fun q => q.date == r.date))
  zRes r.value (meanList grp) (sampleStd grp)

/-- Standardized row: the value column replaced by the z-score, keys
unchanged. -/
noncomputable def zscoreRow (rows : List FRow) (r : FRow) : FRow :=
  ⟨r.symbol, r.date, (zscoreRes rows r).toOpt⟩

/-- Cross-sectional z-score standardization,
crates/fd-factors/src/standardize.rs lines 22-42: per date, replace the
value column by (x - mean) / std with the sample standard deviation. -/
noncomputable def cross_sectional_standardize (df : FPanel) (value_column : String) :
    Except FactorError FPanel :=
  if df.colName = value_column then
    .ok ⟨value_column, df.rows.map (zscoreRow df.rows)⟩
  else .error (.Polars value_column)

/-- Linear-interpolation quantile on the sorted non-null observations
(Polars QuantileMethod.Linear): position p * (n - 1), interpolate between
the two neighbouring order statistics, upper index clamped to n - 1. -/
noncomputable def quantileLinear (xs : List ℝ) (p : ℝ) : Option ℝ :=
  let s := List.insertionSort (· ≤ ·) xs
  let n := s.length
  if n = 0 then none
  else
    let pos := p * ((n : ℝ) - 1)
    let l := ⌊pos⌋₊
    let u := min (l + 1) (n - 1)
    some (s.getD l 0 + (pos - l) * (s.getD u 0 - s.getD l 0))

/-- Winsorized row: clip the value into the per-date quantile bounds with
the branch order of the source (below lower first, above upper second,
otherwise unchanged); a null value or null bound leaves the value as is. -/
noncomputable def winsorizeRow (rows : List FRow) (lower_pct upper_pct : ℝ)
    (r : FRow) : FRow :=
  let grp := someVals (rows.filter (fun q => q.date == r.date))
  ⟨r.symbol, r.date,
    match r.value, quantileLinear grp lower_pct, quantileLinear grp upper_pct with
    | some x, some lo, some hi =>
        some (if x < lo then lo else if hi < x then hi else x)
    | v, _, _ => v⟩

/-- Winsorization, crates/fd-factors/src/standardize.rs lines 59-92: per
date, clip the value column into the lower_pct and upper_pct linear
quantiles of that cross-section.  Polars rejects a quantile outside the
unit interval, which surfaces as an error from collect. -/
noncomputable def winsorize (df : FPanel) (value_column : String)
    (lower_pct upper_pct : ℝ) : Except FactorError FPanel :=
  if df.colName = value_column then
    if 0 ≤ lower_pct ∧ lower_pct ≤ 1 ∧ 0 ≤ upper_pct ∧ upper_pct ≤ 1 then
      .ok ⟨value_column, df.rows.map (winsorizeRow df.rows lower_pct upper_pct)⟩
    else .error (.Polars "quantile should be between 0.0 and 1.0")
  else .error (.Polars value_column)

/-- Median of a column (Polars median): middle order statistic, or the mean
of the two middle order statistics for an even count; null when empty. -/
noncomputable def medianList (xs : List ℝ) : Option ℝ :=
  let s := List.insertionSort (· ≤ ·) xs
  let n := s.length
  if n = 0 then none
  else if n % 2 = 1 then some (s.getD (n / 2) 0)
  else some ((s.getD (n / 2 - 1) 0 + s.getD (n / 2) 0) / 2)

/-- Consistency constant of the source, crates/fd-factors/src/standardize.rs
line 109. -/
def MAD_SCALE : ℝ := 1.4826

/-- Division step of the robust z-score: null operands propagate, otherwise
IEEE division by MAD times the consistency constant. -/
noncomputable def robustRes (x med mad : Option ℝ) : FRes :=
  match x, med, mad with
  | some x, some med, some mad => ieeeDivRes (x - med) (mad * MAD_SCALE)
  | _, _, _ => .null

/-- MAD-based robust standardization,
crates/fd-factors/src/standardize.rs lines 107-134: per date, replace the
value column by (x - median) / (MAD * 1.4826), where MAD is the median of
the absolute deviations from the per-date median. -/
noncomputable def robust_standardize (df : FPanel) (value_column : String) :
    Except FactorError FPanel :=
  if df.colName = value_column then
    .ok ⟨value_column, df.rows.map (fun r =>
      let grp := df.rows.filter (fun q => q.date == r.date)
      let med := medianList (someVals grp)
      let absdev := someVals (grp.map (fun q =>
        ⟨q.symbol, q.date, match q.value, med with
          | some x, some m => some |x - m|
          | _, _ => none⟩))
      let mad := medianList absdev
      ⟨r.symbol, r.date, (robustRes r.value med mad).toOpt⟩)⟩
  else .error (.Polars value_column)

/-- Lexicographic row order used by the multi-column sort on symbol then
date, both ascending (SortMultipleOptions in the source). -/
def rowLe (a b : Row) : Prop :=
  a.symbol < b.symbol ∨ (a.symbol = b.symbol ∧ a.date ≤ b.date)

instance : DecidableRel rowLe := fun a b => by
  unfold rowLe; infer_instance

/-- Growth expression of the factors: current / lagged - 1, with null
propagation; division by an exact zero (nonfinite in IEEE) is recorded as
missing. -/
noncomputable def growthVal (cur lag : Option ℝ) : Option ℝ :=
  match cur, lag with
  | some c, some l => (ieeeDivRes c l).toOpt.map (fun q => q - 1)
  | _, _ => none

/-- Lag column produced by shift(n) over the symbol partitions: for each
row, the total_assets value n positions earlier among the rows of the same
symbol, in frame order; null when fewer than n same-symbol rows precede.
The first argument pre accumulates the rows already passed. -/
def lagColumn (n : ℕ) (pre : List Row) : List Row → List (Row × Option ℝ)
  | [] => []
  | r :: rest =>
    let part := (pre.filter (fun q => q.symbol == r.symbol)).map (fun q => q.total_assets)
    let lag : Option ℝ :=
      if n = 0 then r.total_assets
      else if n ≤ part.length then (part.get? (part.length - n)).join
      else none
    (r, lag) :: lagColumn n (pre ++ [r]) rest

/-- Raw asset growth computation,
crates/factors/src/growth/asset_growth.rs lines 74-108 (the fd-factors
twin, lines 57-92, is the growth_periods = 4 instance): filter to dates at
most the as-of date, sort by symbol and date, lag total_assets by
growth_periods within each symbol, keep the rows dated exactly at the as-of
date and emit (total_assets / lag) - 1. -/
noncomputable def assetGrowthComputeRaw (growth_periods : ℕ) (data : Panel) (d : ℕ) :
    Except FactorError FPanel :=
  if data.hasTotalAssets then
    let filtered := data.rows.filter (fun r => r.date ≤ d)
    let sorted := List.insertionSort rowLe filtered
    let withLag := lagColumn growth_periods [] sorted
    let atDate := withLag.filter (fun p => p.1.date == d)
    .ok ⟨"asset_growth", atDate.map (fun p =>
      ⟨p.1.symbol, p.1.date, growthVal p.1.total_assets p.2⟩)⟩
  else .error (.Polars "total_assets")

/-- Date order used to sort a symbol group by date inside the aggregation. -/
def dateLe (a b : Row) : Prop := a.date ≤ b.date

instance : DecidableRel dateLe := fun a b => by
  unfold dateLe; infer_instance

/-- Aggregation row of short-term momentum for one symbol group: the last
date of the group, and (close at n-skip-1) / (close at n-lookback-skip-1)
minus 1 over the group sorted by date, where each slice with a negative
offset beyond the start of the series is empty and yields null. -/
noncomputable def stmGroupRow (lookback skip : ℕ) (rows : List Row) (s : String) : FRow :=
  let grp := rows.filter (fun r => r.symbol == s)
  let dates := List.insertionSort (· ≤ ·) (grp.map (fun r => r.date))
  let closes := (List.insertionSort dateLe grp).map (fun r => r.close)
  let n := closes.length
  let current : Option ℝ :=
    if skip + 1 ≤ n then (closes.get? (n - (skip + 1))).join else none
  let lagged : Option ℝ :=
    if lookback + skip + 1 ≤ n then (closes.get? (n - (lookback + skip + 1))).join else none
  ⟨s, dates.getLastD 0, growthVal current lagged⟩

/-- Raw short-term momentum computation,
crates/factors/src/momentum/short_term.rs lines 74-117: filter to dates at
most the as-of date, group by symbol, aggregate the last date and the
prices skip+1 and lookback+skip+1 positions from the end of the
date-sorted series, emit the growth and drop the rows whose momentum is
null. -/
noncomputable def stmComputeRaw (lookback skip : ℕ) (data : Panel) (d : ℕ) :
    Except FactorError FPanel :=
  if data.hasClose then
    let filtered := data.rows.filter (fun r => r.date ≤ d)
    let syms := (filtered.map (fun r => r.symbol)).dedup
    .ok ⟨"short_term_momentum",
      (syms.map (stmGroupRow lookback skip filtered)).filter (fun r => !r.value.isNone)⟩
  else .error (.Polars "close")

/-- The embedded factors: AssetGrowth with its growth_periods
configuration (default 4) and ShortTermMomentum with its lookback and
skip_days configuration (defaults 21 and 5). -/
inductive Factor where
  | assetGrowth (growth_periods : ℕ)
  | shortTermMomentum (lookback skip_days : ℕ)

/-- Factor name, the stable identifier and output column name. -/
def Factor.name : Factor → String
  | .assetGrowth _ => "asset_growth"
  | .shortTermMomentum _ _ => "short_term_momentum"

/-- Lookback metadata of the factor. -/
def Factor.lookback : Factor → ℕ
  | .assetGrowth g => g
  | .shortTermMomentum l _ => l

/-- Dispatch of compute_raw over the embedded factors. -/
noncomputable def Factor.compute_raw : Factor → Panel → ℕ → Except FactorError FPanel
  | .assetGrowth g => assetGrowthComputeRaw g
  | .shortTermMomentum l s => stmComputeRaw l s

/-- Default compute of the Factor trait, crates/factors/src/traits.rs lines
60-63: compute_raw, then cross-sectional standardization with the factor
name as the value column; a compute_raw error propagates through the
question-mark operator. -/
noncomputable def Factor.compute (f : Factor) (data : Panel) (d : ℕ) :
    Except FactorError FPanel :=
  (f.compute_raw data d).bind (fun raw => cross_sectional_standardize raw f.name)

/-- Wide result row of compute_all: the join keys and one value cell per
joined factor column. -/
structure WRow where
  symbol : String
  date : ℕ
  values : List (Option ℝ)

/-- Wide result panel of compute_all. -/
structure WPanel where
  colNames : List String
  rows : List WRow

/-- Inner join of a wide panel with one factor panel on symbol and date
(JoinType.Inner in the source): keep exactly the key matches, append the
factor value to the matched row. -/
def innerJoin (w : WPanel) (f : FPanel) : WPanel :=
  ⟨w.colNames ++ [f.colName],
    w.rows.flatMap (fun wr =>
      (f.rows.filter (fun fr => fr.symbol == wr.symbol && fr.date == wr.date)).map
        (fun fr => ⟨wr.symbol, wr.date, wr.values ++ [fr.value]⟩))⟩

/-- Loop of compute_all, crates/factors/src/registry.rs lines 157-178: fold
the standardized per-factor results with inner joins, starting from the
first factor result. -/
noncomputable def computeAllAux (data : Panel) (d : ℕ) :
    Option WPanel → List Factor → Except FactorError (Option WPanel)
  | acc, [] => .ok acc
  | acc, f :: fs =>
    match f.compute data d with
    | .error e => .error e
    | .ok fd =>
      let acc' : WPanel :=
        match acc with
        | some w => innerJoin w fd
        | none => ⟨[fd.colName], fd.rows.map (fun r => ⟨r.symbol, r.date, [r.value]⟩)⟩
      computeAllAux data d (some acc') fs

/-- Registry composition compute_all, crates/factors/src/registry.rs lines
157-178; the registry is the list of registered factors in iteration
order, and an empty registry is a Computation error. -/
noncomputable def compute_all (registry : List Factor) (data : Panel) (d : ℕ) :
    Except FactorError WPanel :=
  match computeAllAux data d none registry with
  | .error e => .error e
  | .ok none => .error (.Computation "No factors registered")
  | .ok (some w) => .ok w

/-! Concrete panels used across the development.  Dates are indexed
chronologically: for the quarterly scenario, 0 stands for 2023-01-01, 1 for
2023-04-01, 2 for 2023-07-01, 3 for 2023-10-01 and 4 for 2024-01-01. -/

/-- Quarterly scenario panel of the specification: AAPL total_assets
100, 105, 110, 115, 120 on the five consecutive quarters. -/
noncomputable def aaplPanel : Panel :=
  ⟨true, true,
    [⟨"AAPL", 0, some 100, none⟩, ⟨"AAPL", 1, some 105, none⟩,
     ⟨"AAPL", 2, some 110, none⟩, ⟨"AAPL", 3, some 115, none⟩,
     ⟨"AAPL", 4, some 120, none⟩]⟩

/-- Daily panel whose single symbol stops trading before the as-of date:
closes 100 and 100 on dates 0 and 1. -/
noncomputable def staleClosePanel : Panel :=
  ⟨true, true, [⟨"A", 0, none, some 100⟩, ⟨"A", 1, none, some 100⟩]⟩

/-- One-date factor panel with values 0 and 100, exercising winsorization. -/
noncomputable def pairFPanel : FPanel :=
  ⟨"v", [⟨"A", 0, some 0⟩, ⟨"B", 0, some 100⟩]⟩

/-- One-date factor panel with values 1, 2, 3, the z-score example. -/
noncomputable def tripleFPanel : FPanel :=
  ⟨"value", [⟨"A", 0, some 1⟩, ⟨"B", 0, some 2⟩, ⟨"C", 0, some 3⟩]⟩

/-- One-date factor panel with two equal values, a zero-variance
cross-section. -/
noncomputable def flatFPanel : FPanel :=
  ⟨"v", [⟨"A", 0, some 1⟩, ⟨"B", 0, some 1⟩]⟩

/-- Evaluation of asset growth on the scenario panel as of date 4
(2024-01-01): the single row (AAPL, 2024-01-01, 0.2). -/
lemma ag_scenario_eval4 :
    assetGrowthComputeRaw 4 aaplPanel 4 =
      .ok ⟨"asset_growth", [⟨"AAPL", 4, some 0.2⟩]⟩ := by
  norm_num [assetGrowthComputeRaw, aaplPanel, lagColumn, growthVal,
    ieeeDivRes, FRes.toOpt, rowLe, List.insertionSort, List.orderedInsert]

/-- Evaluation of asset growth on the scenario panel as of date 3
(2023-10-01, only three prior quarters): the AAPL row is present with a
missing value, not absent. -/
lemma ag_scenario_eval3 :
    assetGrowthComputeRaw 4 aaplPanel 3 =
      .ok ⟨"asset_growth", [⟨"AAPL", 3, none⟩]⟩ := by
  norm_num [assetGrowthComputeRaw, aaplPanel, lagColumn, growthVal,
    ieeeDivRes, FRes.toOpt, rowLe, List.insertionSort, List.orderedInsert]

/-- Evaluation of short-term momentum with lookback 1 and skip 0 on the
stale panel as of date 2: the symbol row carries its last date 1, not the
as-of date 2. -/
lemma stm_stale_eval :
    stmComputeRaw 1 0 staleClosePanel 2 =
      .ok ⟨"short_term_momentum", [⟨"A", 1, some 0⟩]⟩ := by
  norm_num [stmComputeRaw, staleClosePanel, stmGroupRow, growthVal, ieeeDivRes,
    FRes.toOpt, dateLe, List.insertionSort, List.orderedInsert, List.dedup,
    List.getLastD]

/-- Rows dated strictly after the as-of date are removed by the leading
point-in-time filter. -/
lemma filter_append_late (rows extra : List Row) (d : ℕ)
    (h : ∀ r ∈ extra, d < r.date) :
    (rows ++ extra).filter (fun r => r.date ≤ d) =
      rows.filter (fun r => r.date ≤ d) := by
  have hx : extra.filter (fun r => r.date ≤ d) = [] :=
    List.filter_eq_nil_iff.mpr (fun r hr => by simpa using h r hr)
  rw [List.filter_append, hx, List.append_nil]

/-- Point-in-time filtering is idempotent. -/
lemma filter_le_idem (rows : List Row) (d : ℕ) :
    (rows.filter (fun r => r.date ≤ d)).filter (fun r => r.date ≤ d) =
      rows.filter (fun r => r.date ≤ d) := by
  simp [List.filter_filter]

/-- C1 (confirmed): no look-ahead.  For every embedded factor and as-of
date d, compute_raw is invariant under appending input rows dated strictly
after d, and equivalently under removing all rows dated after d. -/
theorem factor_compute_raw_no_lookahead (f : Factor) (data : Panel)
    (extra : List Row) (d : ℕ) (h : ∀ r ∈ extra, d < r.date) :
    f.compute_raw ⟨data.hasTotalAssets, data.hasClose, data.rows ++ extra⟩ d =
      f.compute_raw data d ∧
    f.compute_raw ⟨data.hasTotalAssets, data.hasClose,
        data.rows.filter (fun r => r.date ≤ d)⟩ d =
      f.compute_raw data d := by
  have key := filter_append_late data.rows extra d h
  have key2 := filter_le_idem data.rows d
  cases f with
  | assetGrowth g =>
    refine ⟨?_, ?_⟩ <;> simp only [Factor.compute_raw, assetGrowthComputeRaw]
    · rw [key]
    · rw [key2]
  | shortTermMomentum l s =>
    refine ⟨?_, ?_⟩ <;> simp only [Factor.compute_raw, stmComputeRaw]
    · rw [key]
    · rw [key2]

/-- Witness for C1: appending a row dated 5 does not change the asset
growth output as of date 0. -/
theorem factor_compute_raw_no_lookahead_witness :
    Factor.compute_raw (.assetGrowth 4)
        ⟨true, true, [⟨"AAPL", 0, some 100, none⟩] ++ [⟨"AAPL", 5, some 200, none⟩]⟩ 0 =
      Factor.compute_raw (.assetGrowth 4) ⟨true, true, [⟨"AAPL", 0, some 100, none⟩]⟩ 0 :=
  (factor_compute_raw_no_lookahead (.assetGrowth 4)
    ⟨true, true, [⟨"AAPL", 0, some 100, none⟩]⟩ [⟨"AAPL", 5, some 200, none⟩] 0
    (by simp)).1

/-- C8 (confirmed): compute_all on an empty registry is the hard
Computation failure carrying the message of the source, never an empty
result panel. -/
theorem compute_all_empty_registry (data : Panel) (d : ℕ) :
    compute_all [] data d = .error (.Computation "No factors registered") := rfl

/-- C6 (confirmed): the default compute chains compute_raw into the
cross-sectional z-score keyed by the factor name, and propagates a
compute_raw error unchanged. -/
theorem factor_compute_default_chaining (f : Factor) (data : Panel) (d : ℕ) :
    f.compute data d =
      (f.compute_raw data d).bind
        (fun raw => cross_sectional_standardize raw f.name) ∧
    ∀ e : FactorError, f.compute_raw data d = .error e →
      f.compute data d = .error e := by
  refine ⟨rfl, ?_⟩
  intro e he
  simp [Factor.compute, he, Except.bind]

/-- Witness for C6: a panel without the total_assets column makes
compute_raw fail, and compute fails with the same error. -/
theorem factor_compute_default_chaining_witness :
    (Factor.assetGrowth 4).compute ⟨false, true, []⟩ 0 =
      .error (.Polars "total_assets") :=
  (factor_compute_default_chaining (.assetGrowth 4) ⟨false, true, []⟩ 0).2
    (.Polars "total_assets") rfl

/-- Null lag propagates through the growth expression. -/
lemma growthVal_none (x : Option ℝ) : growthVal x none = none := by
  cases x <;> rfl

/-- The first components of lagColumn are the input rows. -/
lemma lagColumn_map_fst (n : ℕ) :
    ∀ (l pre : List Row), (lagColumn n pre l).map Prod.fst = l := by
  intro l
  induction l with
  | nil => intro pre; rfl
  | cons r rest ih => intro pre; simp [lagColumn, ih]

/-- Within lagColumn, a row whose symbol occurs at most n times in the
whole frame receives a null lag: the shift by n reaches before the start
of its partition. -/
lemma lagColumn_short_none {n : ℕ} (hn : 0 < n) :
    ∀ (l pre : List Row) (p : Row × Option ℝ), p ∈ lagColumn n pre l →
      ((pre ++ l).filter (fun q => q.symbol == p.1.symbol)).length ≤ n →
      p.2 = none := by
  intro l
  induction l with
  | nil => intro pre p hp; simp [lagColumn] at hp
  | cons r rest ih =>
    intro pre p hp hlen
    simp only [lagColumn, List.mem_cons] at hp
    rcases hp with hp | hp
    · subst hp
      dsimp only at hlen ⊢
      have hself : (r.symbol == r.symbol) = true := by simp
      have hsplit :
          ((pre ++ r :: rest).filter (fun q => q.symbol == r.symbol)).length =
            (pre.filter (fun q => q.symbol == r.symbol)).length + 1 +
              (rest.filter (fun q => q.symbol == r.symbol)).length := by
        rw [List.filter_append]
        simp [List.filter_cons, hself, List.length_append]
        omega
      have hcount : (pre.filter (fun q => q.symbol == r.symbol)).length + 1 ≤ n := by
        omega
      have hlt : ¬ n ≤ ((pre.filter (fun q => q.symbol == r.symbol)).map
          (fun q => q.total_assets)).length := by
        rw [List.length_map]; omega
      rw [if_neg (Nat.pos_iff_ne_zero.mp hn), if_neg hlt]
    · refine ih (pre ++ [r]) p hp ?_
      rw [List.append_assoc]
      simpa using hlen

/-- C2 counterexample: on the scenario panel as of date 3 (2023-10-01,
three prior quarters), asset growth returns the AAPL row with a missing
value, contradicting the claim that it yields no row for AAPL. -/
theorem asset_growth_lookback_counterexample :
    assetGrowthComputeRaw 4 aaplPanel 3 =
      .ok ⟨"asset_growth", [⟨"AAPL", 3, none⟩]⟩ ∧
    assetGrowthComputeRaw 4 aaplPanel 3 ≠
      .ok ⟨"asset_growth", ([] : List FRow)⟩ := by
  refine ⟨ag_scenario_eval3, ?_⟩
  rw [ag_scenario_eval3]
  simp

/-- C2 (corrected): the scenario as of date 4 yields the single row
(AAPL, date 4, 0.2); as of date 3 the AAPL row is present with a missing
value rather than absent, and in general an asset growth symbol with at
most growth_periods observed rows up to the as-of date carries a null
value in the raw output instead of being dropped. -/
theorem asset_growth_lookback_amended :
    assetGrowthComputeRaw 4 aaplPanel 4 =
      .ok ⟨"asset_growth", [⟨"AAPL", 4, some 0.2⟩]⟩ ∧
    assetGrowthComputeRaw 4 aaplPanel 3 =
      .ok ⟨"asset_growth", [⟨"AAPL", 3, none⟩]⟩ ∧
    ∀ (g : ℕ) (data : Panel) (d : ℕ) (w : FPanel), 0 < g →
      assetGrowthComputeRaw g data d = .ok w →
      ∀ r ∈ w.rows,
        (data.rows.filter (fun q => q.symbol == r.symbol && q.date ≤ d)).length ≤ g →
        r.value = none := by
  refine ⟨ag_scenario_eval4, ag_scenario_eval3, ?_⟩
  intro g data d w hg hok r hr hlen
  by_cases hcol : data.hasTotalAssets = true
  · simp only [assetGrowthComputeRaw, hcol, if_true, Except.ok.injEq] at hok
    subst hok
    simp only [List.mem_map, List.mem_filter] at hr
    obtain ⟨p, ⟨hpmem, _⟩, hpr⟩ := hr
    subst hpr
    dsimp only at hlen ⊢
    have hperm :
        List.Perm
          (List.filter (fun q : Row => q.symbol == p.1.symbol)
            (List.insertionSort rowLe
              (data.rows.filter (fun q => decide (q.date ≤ d)))))
          (List.filter (fun q : Row => q.symbol == p.1.symbol)
            (data.rows.filter (fun q => decide (q.date ≤ d)))) :=
      (List.perm_insertionSort rowLe _).filter (fun q : Row => q.symbol == p.1.symbol)
    have hnone : p.2 = none := by
      refine lagColumn_short_none hg _ [] p hpmem ?_
      rw [List.nil_append, hperm.length_eq, List.filter_filter]
      exact hlen
    rw [hnone, growthVal_none]
  · simp [assetGrowthComputeRaw, hcol] at hok

/-- Witness for the amended C2: the scenario instance itself, where AAPL
has four observed rows up to date 3 and the output value is null. -/
theorem asset_growth_lookback_amended_witness :
    (FRow.mk "AAPL" 3 none).value = none :=
  asset_growth_lookback_amended.2.2 4 aaplPanel 3
    ⟨"asset_growth", [⟨"AAPL", 3, none⟩]⟩ (by norm_num) ag_scenario_eval3
    ⟨"AAPL", 3, none⟩ (by simp) (by norm_num [aaplPanel])

/-- Evaluation of asset growth on a panel with a single row: the symbol
has one observed period, fewer than the four the lookback needs, yet the
output keeps its row with a missing value. -/
lemma ag_single_eval :
    assetGrowthComputeRaw 4 ⟨true, true, [⟨"B", 0, some 100, none⟩]⟩ 0 =
      .ok ⟨"asset_growth", [⟨"B", 0, none⟩]⟩ := by
  norm_num [assetGrowthComputeRaw, lagColumn, growthVal, ieeeDivRes,
    FRes.toOpt, rowLe, List.insertionSort, List.orderedInsert]

/-- The default-valued last element of a nonempty list is a member. -/
lemma getLastD_mem : ∀ (l : List ℕ) (a : ℕ), l ≠ [] → l.getLastD a ∈ l
  | [], _, h => absurd rfl h
  | b :: l, a, _ => by
    rw [List.getLastD_cons]
    cases l with
    | nil => simp [List.getLastD_nil]
    | cons c t =>
      exact List.mem_cons_of_mem _ (getLastD_mem (c :: t) b (by simp))

/-- In a list sorted by the natural order, every member is at most the
last element. -/
lemma sorted_le_getLastD (l : List ℕ) : ∀ (a : ℕ), l.Sorted (· ≤ ·) →
    ∀ x ∈ l, x ≤ l.getLastD a := by
  induction l with
  | nil => intro a _ x hx; exact absurd hx (by simp)
  | cons b t ih =>
    intro a hs x hx
    rw [List.getLastD_cons]
    have hs' := List.sorted_cons.mp hs
    rcases List.mem_cons.mp hx with hxb | hx'
    · rw [hxb]
      cases t with
      | nil => simp [List.getLastD_nil]
      | cons c u => exact hs'.1 _ (getLastD_mem (c :: u) b (by simp))
    · exact ih b hs'.2 x hx'

/-- Taking first components commutes with filtering on a first-component
predicate. -/
lemma map_fst_filter_date (d : ℕ) (l : List (Row × Option ℝ)) :
    (l.filter (fun p => p.1.date == d)).map Prod.fst =
      (l.map Prod.fst).filter (fun q => q.date == d) := by
  induction l with
  | nil => rfl
  | cons p t ih =>
    by_cases h : (p.1.date == d) = true <;> simp [List.filter_cons, h, ih]

/-- Keeping the as-of rows of the sorted point-in-time frame is a
permutation of keeping the as-of rows of the raw panel. -/
lemma filter_date_eq_perm (rows : List Row) (d : ℕ) :
    List.Perm
      ((List.insertionSort rowLe (rows.filter (fun q => decide (q.date ≤ d)))).filter
        (fun q : Row => q.date == d))
      (rows.filter (fun q : Row => q.date == d)) := by
  have h1 := (List.perm_insertionSort rowLe
    (rows.filter (fun q => decide (q.date ≤ d)))).filter (fun q : Row => q.date == d)
  have h2 : (rows.filter (fun q => decide (q.date ≤ d))).filter
      (fun q : Row => q.date == d) = rows.filter (fun q : Row => q.date == d) := by
    rw [List.filter_filter]
    apply List.filter_congr
    intro q _
    by_cases h : q.date = d
    · simp [h]
    · simp [h]
  exact h2 ▸ h1

/-- C3 counterexample: short-term momentum on the stale panel as of date 2
returns a row dated 1, and asset growth keeps an unmet-lookback symbol as
a row with a missing value instead of dropping it. -/
theorem compute_raw_shape_counterexample :
    stmComputeRaw 1 0 staleClosePanel 2 =
      .ok ⟨"short_term_momentum", [⟨"A", 1, some 0⟩]⟩ ∧
    FRow.date ⟨"A", 1, some 0⟩ ≠ 2 ∧
    assetGrowthComputeRaw 4 ⟨true, true, [⟨"B", 0, some 100, none⟩]⟩ 0 =
      .ok ⟨"asset_growth", [⟨"B", 0, none⟩]⟩ ∧
    FRow.value ⟨"B", 0, (none : Option ℝ)⟩ = none := by
  refine ⟨stm_stale_eval, by simp, ag_single_eval, rfl⟩

/-- C3 (corrected): output shape of the raw computations.  Asset growth
returns the asset_growth column, rows dated exactly at the as-of date, at
most one row per symbol whenever the input has at most one row per symbol
at the as-of date, and unmet-lookback symbols appear with a missing value
(see the C2 analysis) rather than being dropped.  Short-term momentum
returns its column with at most one row per symbol and no missing values,
but each row is dated at the latest observed date of its symbol at or
before the as-of date, which equals the as-of date only when the symbol
has a row on it. -/
theorem compute_raw_shape_amended :
    (∀ (g : ℕ) (data : Panel) (d : ℕ) (w : FPanel),
      assetGrowthComputeRaw g data d = .ok w →
      w.colName = "asset_growth" ∧
      (∀ r ∈ w.rows, r.date = d) ∧
      (((data.rows.filter (fun q : Row => q.date == d)).map Row.symbol).Nodup →
        (w.rows.map FRow.symbol).Nodup)) ∧
    (∀ (lookback skip : ℕ) (data : Panel) (d : ℕ) (w : FPanel),
      stmComputeRaw lookback skip data d = .ok w →
      w.colName = "short_term_momentum" ∧
      (w.rows.map FRow.symbol).Nodup ∧
      (∀ r ∈ w.rows, r.value ≠ none) ∧
      (∀ r ∈ w.rows,
        (∃ q ∈ data.rows, q.symbol = r.symbol ∧ q.date = r.date ∧ r.date ≤ d) ∧
        (∀ q ∈ data.rows, q.symbol = r.symbol → q.date ≤ d → q.date ≤ r.date))) := by
  constructor
  · intro g data d w hok
    by_cases hcol : data.hasTotalAssets = true
    · simp only [assetGrowthComputeRaw, hcol, if_true, Except.ok.injEq] at hok
      subst hok
      refine ⟨rfl, ?_, ?_⟩
      · intro r hr
        simp only [List.mem_map, List.mem_filter] at hr
        obtain ⟨p, ⟨_, hpd⟩, hpr⟩ := hr
        subst hpr
        simpa using hpd
      · intro hnd
        have hmm :
            (List.map (fun p : Row × Option ℝ =>
                (⟨p.1.symbol, p.1.date, growthVal p.1.total_assets p.2⟩ : FRow))
              (List.filter (fun p => p.1.date == d)
                (lagColumn g [] (List.insertionSort rowLe
                  (data.rows.filter (fun r => decide (r.date ≤ d))))))).map FRow.symbol =
            ((List.filter (fun p => p.1.date == d)
                (lagColumn g [] (List.insertionSort rowLe
                  (data.rows.filter (fun r => decide (r.date ≤ d)))))).map Prod.fst).map
              Row.symbol := by
          simp [List.map_map, Function.comp]
        dsimp only
        rw [hmm, map_fst_filter_date, lagColumn_map_fst]
        exact ((filter_date_eq_perm data.rows d).map Row.symbol).nodup_iff.mpr hnd
    · simp [assetGrowthComputeRaw, hcol] at hok
  · intro lookback skip data d w hok
    by_cases hcol : data.hasClose = true
    · simp only [stmComputeRaw, hcol, if_true, Except.ok.injEq] at hok
      subst hok
      refine ⟨rfl, ?_, ?_, ?_⟩
      · dsimp only
        rw [List.filter_map, List.map_map]
        have hid :
            ((((data.rows.filter (fun r => decide (r.date ≤ d))).map
                (fun r => r.symbol)).dedup).filter
              ((fun r : FRow => !r.value.isNone) ∘
                stmGroupRow lookback skip
                  (data.rows.filter (fun r => decide (r.date ≤ d))))).map
              (FRow.symbol ∘ stmGroupRow lookback skip
                (data.rows.filter (fun r => decide (r.date ≤ d)))) =
            (((data.rows.filter (fun r => decide (r.date ≤ d))).map
                (fun r => r.symbol)).dedup).filter
              ((fun r : FRow => !r.value.isNone) ∘
                stmGroupRow lookback skip
                  (data.rows.filter (fun r => decide (r.date ≤ d)))) := by
          rw [show (FRow.symbol ∘ stmGroupRow lookback skip
              (data.rows.filter (fun r => decide (r.date ≤ d)))) = id from rfl,
            List.map_id]
        rw [hid]
        exact (List.filter_sublist _).nodup (List.nodup_dedup _)
      · intro r hr
        simp only [List.mem_filter] at hr
        intro hcontra
        rw [hcontra] at hr
        simp at hr
      · intro r hr
        have hrm := List.mem_of_mem_filter hr
        simp only [List.mem_map] at hrm
        obtain ⟨sym, hsym, hfr⟩ := hrm
        have hsym' := List.mem_dedup.mp hsym
        simp only [List.mem_map] at hsym'
        obtain ⟨q0, hq0, hq0s⟩ := hsym'
        subst hfr
        dsimp only [stmGroupRow]
        set filtered := data.rows.filter (fun r => decide (r.date ≤ d)) with hfdef
        set grp := filtered.filter (fun r => r.symbol == sym) with hgdef
        have hq0grp : q0 ∈ grp := by
          rw [hgdef]
          exact List.mem_filter.mpr ⟨hq0, by simp [hq0s]⟩
        have hne : List.insertionSort (· ≤ ·) (grp.map (fun r => r.date)) ≠ [] := by
          intro hct
          have := congrArg List.length hct
          rw [(List.perm_insertionSort (· ≤ ·) (grp.map (fun r => r.date))).length_eq] at this
          simp at this
          rw [this] at hq0grp
          simp at hq0grp
        have hsorted : (List.insertionSort (· ≤ ·) (grp.map (fun r => r.date))).Sorted
            (· ≤ ·) := List.sorted_insertionSort (· ≤ ·) _
        have hlastmem : (List.insertionSort (· ≤ ·)
            (grp.map (fun r => r.date))).getLastD 0 ∈
            List.insertionSort (· ≤ ·) (grp.map (fun r => r.date)) :=
          getLastD_mem _ 0 hne
        have hlast' := (List.perm_insertionSort (· ≤ ·)
          (grp.map (fun r => r.date))).mem_iff.mp hlastmem
        simp only [List.mem_map] at hlast'
        obtain ⟨q1, hq1grp, hq1d⟩ := hlast'
        have hq1f : q1 ∈ filtered := List.mem_of_mem_filter hq1grp
        have hq1sym : q1.symbol = sym := by
          have := (List.mem_filter.mp hq1grp).2
          simpa using this
        have hq1data : q1 ∈ data.rows ∧ q1.date ≤ d := by
          have := List.mem_filter.mp hq1f
          exact ⟨this.1, by simpa using this.2⟩
        constructor
        · exact ⟨q1, hq1data.1, hq1sym, hq1d, hq1d ▸ hq1data.2⟩
        · intro q hq hqs hqd
          have hqf : q ∈ filtered := by
            rw [hfdef]
            exact List.mem_filter.mpr ⟨hq, by simpa using hqd⟩
          have hqgrp : q ∈ grp := by
            rw [hgdef]
            exact List.mem_filter.mpr ⟨hqf, by simp [hqs]⟩
          have hqdates : q.date ∈ List.insertionSort (· ≤ ·)
              (grp.map (fun r => r.date)) :=
            (List.perm_insertionSort (· ≤ ·) _).mem_iff.mpr
              (List.mem_map.mpr ⟨q, hqgrp, rfl⟩)
          exact sorted_le_getLastD _ 0 hsorted _ hqdates
    · simp [stmComputeRaw, hcol] at hok

/-- Witness for the amended C3: both shape statements instantiated on the
concrete evaluations. -/
theorem compute_raw_shape_amended_witness :
    FPanel.colName ⟨"asset_growth", [⟨"AAPL", 4, some (0.2 : ℝ)⟩]⟩ =
      "asset_growth" ∧
    FPanel.colName ⟨"short_term_momentum", [⟨"A", 1, some (0 : ℝ)⟩]⟩ =
      "short_term_momentum" :=
  ⟨(compute_raw_shape_amended.1 4 aaplPanel 4 _ ag_scenario_eval4).1,
   (compute_raw_shape_amended.2 1 0 staleClosePanel 2 _ stm_stale_eval).1⟩

/-- Linear quantile of a sorted pair: interpolation between the two
values. -/
lemma quantileLinear_pair (a b p : ℝ) (hab : a ≤ b) (h1 : p < 1) :
    quantileLinear [a, b] p = some (a + p * (b - a)) := by
  have hs : List.insertionSort (· ≤ ·) [a, b] = [a, b] := by
    simp [List.insertionSort, List.orderedInsert, hab]
  have hfl : ⌊p⌋₊ = 0 := by
    rw [Nat.floor_eq_zero]; exact h1
  unfold quantileLinear
  rw [hs]
  norm_num [hfl]

/-- Evaluation of the z-score on the zero-variance panel: both rows keep
their keys and receive a missing value (the source would compute 0.0/0.0,
an IEEE NaN). -/
lemma css_flat_eval :
    cross_sectional_standardize flatFPanel "v" =
      .ok ⟨"v", [⟨"A", 0, none⟩, ⟨"B", 0, none⟩]⟩ := by
  norm_num [cross_sectional_standardize, flatFPanel, zscoreRow, zscoreRes,
    someVals, meanList, sampleVar, sampleStd, zRes, ieeeDivRes, FRes.toOpt,
    List.filterMap, Real.sqrt_zero]

/-- Linear median of a sorted pair. -/
lemma medianList_pair (a b : ℝ) (hab : a ≤ b) :
    medianList [a, b] = some ((a + b) / 2) := by
  have hs : List.insertionSort (· ≤ ·) [a, b] = [a, b] := by
    simp [List.insertionSort, List.orderedInsert, hab]
  unfold medianList
  rw [hs]
  norm_num

/-- Evaluation of the robust standardization on the zero-variance panel:
both rows keep their keys and receive a missing value (zero MAD). -/
lemma robust_flat_eval :
    robust_standardize flatFPanel "v" =
      .ok ⟨"v", [⟨"A", 0, none⟩, ⟨"B", 0, none⟩]⟩ := by
  have hm1 : medianList [(1 : ℝ), 1] = some 1 := by
    rw [medianList_pair 1 1 le_rfl]; norm_num
  have hm0 : medianList [(0 : ℝ), 0] = some 0 := by
    rw [medianList_pair 0 0 le_rfl]; norm_num
  norm_num [robust_standardize, flatFPanel, someVals, robustRes,
    ieeeDivRes, FRes.toOpt, MAD_SCALE, List.filterMap, hm1, hm0]

/-- Evaluation of winsorization on the zero-variance panel: both quantiles
coincide with the common value and every row is unchanged. -/
lemma win_flat_eval :
    winsorize flatFPanel "v" 0.25 0.75 =
      .ok ⟨"v", [⟨"A", 0, some 1⟩, ⟨"B", 0, some 1⟩]⟩ := by
  have h1 : quantileLinear [(1 : ℝ), 1] (1 / 4) = some 1 := by
    rw [quantileLinear_pair] <;> norm_num
  have h2 : quantileLinear [(1 : ℝ), 1] (3 / 4) = some 1 := by
    rw [quantileLinear_pair] <;> norm_num
  norm_num [winsorize, winsorizeRow, flatFPanel, someVals, List.filterMap, h1, h2]

/-- C10 (confirmed): the three standardization transforms preserve the row
set.  On success each returns exactly as many rows as the input, with the
symbol and date columns unchanged and the column name unchanged; only the
value column is rewritten. -/
theorem standardize_preserves_rows (df : FPanel) (c : String) (lo hi : ℝ) :
    (∀ w : FPanel, cross_sectional_standardize df c = .ok w →
      w.rows.length = df.rows.length ∧
      w.rows.map FRow.symbol = df.rows.map FRow.symbol ∧
      w.rows.map FRow.date = df.rows.map FRow.date ∧
      w.colName = df.colName) ∧
    (∀ w : FPanel, robust_standardize df c = .ok w →
      w.rows.length = df.rows.length ∧
      w.rows.map FRow.symbol = df.rows.map FRow.symbol ∧
      w.rows.map FRow.date = df.rows.map FRow.date ∧
      w.colName = df.colName) ∧
    (∀ w : FPanel, winsorize df c lo hi = .ok w →
      w.rows.length = df.rows.length ∧
      w.rows.map FRow.symbol = df.rows.map FRow.symbol ∧
      w.rows.map FRow.date = df.rows.map FRow.date ∧
      w.colName = df.colName) := by
  refine ⟨?_, ?_, ?_⟩
  · intro w hok
    by_cases hcol : df.colName = c
    · simp only [cross_sectional_standardize, hcol, if_true, Except.ok.injEq] at hok
      subst hok
      refine ⟨by simp, ?_, ?_, hcol.symm⟩ <;>
        simp [List.map_map, Function.comp, zscoreRow]
    · simp [cross_sectional_standardize, hcol] at hok
  · intro w hok
    by_cases hcol : df.colName = c
    · simp only [robust_standardize, hcol, if_true, Except.ok.injEq] at hok
      subst hok
      refine ⟨by simp, ?_, ?_, hcol.symm⟩ <;>
        simp [List.map_map, Function.comp]
    · simp [robust_standardize, hcol] at hok
  · intro w hok
    by_cases hcol : df.colName = c
    · by_cases hrange : 0 ≤ lo ∧ lo ≤ 1 ∧ 0 ≤ hi ∧ hi ≤ 1
      · unfold winsorize at hok
        rw [if_pos hcol, if_pos hrange] at hok
        have hw := Except.ok.inj hok
        rw [← hw]
        refine ⟨by simp, ?_, ?_, hcol.symm⟩ <;>
          simp [List.map_map, Function.comp, winsorizeRow]
      · simp [winsorize, hcol, hrange] at hok
    · simp [winsorize, hcol] at hok

/-- Witness for C10: the three transforms applied to the two-row panel all
return two rows. -/
theorem standardize_preserves_rows_witness :
    ([⟨"A", 0, none⟩, ⟨"B", 0, none⟩] : List FRow).length =
      flatFPanel.rows.length ∧
    ([⟨"A", 0, none⟩, ⟨"B", 0, none⟩] : List FRow).length =
      flatFPanel.rows.length ∧
    ([⟨"A", 0, some 1⟩, ⟨"B", 0, some 1⟩] : List FRow).length =
      flatFPanel.rows.length :=
  ⟨((standardize_preserves_rows flatFPanel "v" 0.25 0.75).1 _ css_flat_eval).1,
   ((standardize_preserves_rows flatFPanel "v" 0.25 0.75).2.1 _ robust_flat_eval).1,
   ((standardize_preserves_rows flatFPanel "v" 0.25 0.75).2.2 _ win_flat_eval).1⟩

/-- A zero sum of squared deviations forces every observation onto the
common center. -/
lemma sum_sq_zero (xs : List ℝ) (m : ℝ)
    (h : (xs.map (fun x => (x - m) ^ 2)).sum = 0) : ∀ x ∈ xs, x = m := by
  induction xs with
  | nil => intro x hx; exact absurd hx (by simp)
  | cons a t ih =>
    intro x hx
    rw [List.map_cons, List.sum_cons] at h
    have hrest : 0 ≤ (t.map (fun x => (x - m) ^ 2)).sum :=
      List.sum_nonneg (by
        intro y hy
        obtain ⟨z, _, hz⟩ := List.mem_map.mp hy
        rw [← hz]; positivity)
    have hsq : (a - m) ^ 2 = 0 := by nlinarith [sq_nonneg (a - m)]
    have ha : a = m := by
      have := pow_eq_zero_iff (n := 2) (by norm_num) |>.mp hsq
      linarith [sub_eq_zero.mp this]
    rcases List.mem_cons.mp hx with hxa | hxt
    · rw [hxa]; exact ha
    · exact ih (by nlinarith) x hxt

/-- C5 (confirmed): degenerate cross-sections.  On a date whose group has
fewer than two non-missing values or zero sample variance, the z-score
division of every row of that date is null or NaN, never a signed
infinity, and the output panel carries a missing value for the row. -/
theorem cross_sectional_standardize_degenerate
    (df : FPanel) (c : String) (D : ℕ) (w : FPanel)
    (hok : cross_sectional_standardize df c = .ok w)
    (hdeg : (someVals (df.rows.filter (fun q => q.date == D))).length < 2 ∨
            sampleVar (someVals (df.rows.filter (fun q => q.date == D))) = some 0) :
    ∀ r ∈ df.rows, r.date = D →
      zscoreRes df.rows r ≠ .pinf ∧
      zscoreRes df.rows r ≠ .ninf ∧
      (zscoreRes df.rows r).toOpt = none ∧
      zscoreRow df.rows r ∈ w.rows := by
  intro r hr hD
  have hw : w.rows = df.rows.map (zscoreRow df.rows) := by
    by_cases hcol : df.colName = c
    · simp only [cross_sectional_standardize, hcol, if_true, Except.ok.injEq] at hok
      rw [← hok]
    · simp [cross_sectional_standardize, hcol] at hok
  have hmem : zscoreRow df.rows r ∈ w.rows := by
    rw [hw]; exact List.mem_map_of_mem _ hr
  have hres : zscoreRes df.rows r = .null ∨ zscoreRes df.rows r = .nan := by
    have hzeta : zscoreRes df.rows r =
        zRes r.value
          (meanList (someVals (df.rows.filter (fun q => q.date == D))))
          (sampleStd (someVals (df.rows.filter (fun q => q.date == D)))) := by
      simp only [zscoreRes]
      rw [hD]
    rw [hzeta]
    set grp := someVals (df.rows.filter (fun q => q.date == D)) with hgrp
    rcases hdeg with hlen | hvar
    · have hstd : sampleStd grp = none := by
        unfold sampleStd sampleVar
        rw [if_pos hlen]
        rfl
      rw [hstd]
      cases hrv : r.value <;> cases hmean : meanList grp <;> simp [zRes]
    · have hlen2 : ¬ grp.length < 2 := by
        intro hcon
        unfold sampleVar at hvar
        rw [if_pos hcon] at hvar
        exact Option.noConfusion hvar
      have hS : (grp.map (fun x => (x - grp.sum / grp.length) ^ 2)).sum = 0 := by
        unfold sampleVar at hvar
        rw [if_neg hlen2, Option.some.injEq] at hvar
        have hden : ((grp.length : ℝ) - 1) ≠ 0 := by
          have : 2 ≤ grp.length := Nat.not_lt.mp hlen2
          have : (2 : ℝ) ≤ (grp.length : ℝ) := by exact_mod_cast this
          linarith
        field_simp at hvar
        exact hvar
      have hstd : sampleStd grp = some 0 := by
        unfold sampleStd sampleVar
        rw [if_neg hlen2]
        simp [hS]
      have hmean : meanList grp = some (grp.sum / grp.length) := by
        unfold meanList
        rw [if_neg (by omega)]
      rw [hstd, hmean]
      cases hrv : r.value with
      | none => simp [zRes]
      | some x =>
        have hxgrp : x ∈ grp := by
          rw [hgrp]
          unfold someVals
          refine List.mem_filterMap.mpr ⟨r, ?_, hrv⟩
          exact List.mem_filter.mpr ⟨hr, by simp [hD]⟩
        have hx : x = grp.sum / grp.length := sum_sq_zero _ _ hS x hxgrp
        simp [zRes, ieeeDivRes, hx]
  rcases hres with h | h <;>
    exact ⟨by simp [h], by simp [h], by simp [h, FRes.toOpt], hmem⟩

/-- Witness for C5: the zero-variance two-row panel, where the division is
exactly 0/0 and the output value is missing. -/
theorem cross_sectional_standardize_degenerate_witness :
    zscoreRes flatFPanel.rows ⟨"A", 0, some 1⟩ ≠ .pinf ∧
    zscoreRes flatFPanel.rows ⟨"A", 0, some 1⟩ ≠ .ninf ∧
    (zscoreRes flatFPanel.rows ⟨"A", 0, some 1⟩).toOpt = none ∧
    zscoreRow flatFPanel.rows ⟨"A", 0, some 1⟩ ∈
      FPanel.rows ⟨"v", [⟨"A", 0, none⟩, ⟨"B", 0, none⟩]⟩ :=
  cross_sectional_standardize_degenerate flatFPanel "v" 0 _ css_flat_eval
    (Or.inr (by norm_num [sampleVar, someVals, flatFPanel, List.filterMap]))
    ⟨"A", 0, some 1⟩ (by simp [flatFPanel]) rfl

/-- Summation commutes with dividing every term by a constant. -/
lemma list_sum_map_div (xs : List ℝ) (f : ℝ → ℝ) (c : ℝ) :
    (xs.map (fun x => f x / c)).sum = (xs.map f).sum / c := by
  induction xs with
  | nil => simp
  | cons a t ih => simp [ih, add_div]

/-- Summation of centered terms. -/
lemma list_sum_map_sub (xs : List ℝ) (m : ℝ) :
    (xs.map (fun x => x - m)).sum = xs.sum - xs.length * m := by
  induction xs with
  | nil => simp
  | cons a t ih =>
    simp only [List.map_cons, List.sum_cons, ih, List.length_cons]
    push_cast
    ring

/-- Summation of squared scaled deviations. -/
lemma list_sum_map_sq_div (xs : List ℝ) (m s : ℝ) :
    (xs.map (fun x => ((x - m) / s) ^ 2)).sum =
      (xs.map (fun x => (x - m) ^ 2)).sum / s ^ 2 := by
  have h : (fun x : ℝ => ((x - m) / s) ^ 2) = fun x => (x - m) ^ 2 / s ^ 2 := by
    funext x; rw [div_pow]
  rw [h, list_sum_map_div xs (fun x => (x - m) ^ 2) (s ^ 2)]

/-- A sum of squared deviations is nonnegative. -/
lemma list_sum_sq_nonneg (xs : List ℝ) (m : ℝ) :
    0 ≤ (xs.map (fun x => (x - m) ^ 2)).sum :=
  List.sum_nonneg (fun y hy => by
    obtain ⟨z, _, hz⟩ := List.mem_map.mp hy
    rw [← hz]; positivity)

/-- Filtering on a date commutes with the z-score row map, which keeps the
date column. -/
lemma filter_date_map_zscore (rows : List FRow) (D : ℕ) (l : List FRow) :
    (l.map (zscoreRow rows)).filter (fun q => q.date == D) =
      (l.filter (fun q => q.date == D)).map (zscoreRow rows) := by
  induction l with
  | nil => rfl
  | cons r t ih =>
    by_cases h : (r.date == D) = true <;>
      simp [List.filter_cons, zscoreRow, h, ih]

/-- On rows of one date, the z-score map rewrites the non-null values by
centering and scaling, and keeps the null pattern. -/
lemma someVals_zscore_map (rows : List FRow) (D : ℕ) (μ σ : ℝ)
    (hμ : meanList (someVals (rows.filter (fun q => q.date == D))) = some μ)
    (hσ : sampleStd (someVals (rows.filter (fun q => q.date == D))) = some σ)
    (hσne : σ ≠ 0) :
    ∀ l : List FRow, (∀ r ∈ l, r.date = D) →
      someVals (l.map (zscoreRow rows)) =
        (someVals l).map (fun x => (x - μ) / σ) := by
  intro l
  induction l with
  | nil => intro _; rfl
  | cons r t ih =>
    intro hl
    have hrD : r.date = D := hl r (by simp)
    have hz : (zscoreRow rows r).value = (zRes r.value (some μ) (some σ)).toOpt := by
      simp only [zscoreRow, zscoreRes]
      rw [hrD, hμ, hσ]
    have ht := ih (fun q hq => hl q (List.mem_cons_of_mem r hq))
    cases hrv : r.value with
    | none =>
      have hzn : (zscoreRow rows r).value = none := by
        rw [hz, hrv]; rfl
      unfold someVals at ht ⊢
      simp only [List.map_cons, List.filterMap_cons, hzn, hrv]
      exact ht
    | some x =>
      have hzs : (zscoreRow rows r).value = some ((x - μ) / σ) := by
        rw [hz, hrv]
        simp [zRes, ieeeDivRes, FRes.toOpt, hσne]
      unfold someVals at ht ⊢
      rw [List.map_cons, List.filterMap_cons, List.filterMap_cons, hzs, hrv,
        List.map_cons, ht]

/-- Evaluation of the sample standard deviation of the z-score example. -/
lemma sampleStd_triple : sampleStd [(1 : ℝ), 2, 3] = some 1 := by
  unfold sampleStd sampleVar
  norm_num

/-- Evaluation of the z-score on the 1-2-3 panel: the standardized values
are -1, 0, 1. -/
lemma css_triple_eval :
    cross_sectional_standardize tripleFPanel "value" =
      .ok ⟨"value", [⟨"A", 0, some (-1)⟩, ⟨"B", 0, some 0⟩, ⟨"C", 0, some 1⟩]⟩ := by
  have hμ : meanList [(1 : ℝ), 2, 3] = some 2 := by
    unfold meanList; norm_num
  norm_num [cross_sectional_standardize, tripleFPanel, zscoreRow, zscoreRes,
    someVals, List.filterMap, hμ, sampleStd_triple, zRes, ieeeDivRes, FRes.toOpt]

/-- C4 (confirmed): the z-score replaces each non-null value x of a date
cross-section by (x - mean) / std with the sample standard deviation over
that date only; whenever the cross-section has at least two non-null
values and non-zero variance, the standardized values of that date have
mean 0 and sample standard deviation 1, and the raw values 1, 2, 3 on one
date map to -1, 0, 1. -/
theorem cross_sectional_standardize_zscore :
    (∀ (df : FPanel) (c : String) (D : ℕ) (w : FPanel) (grp : List ℝ),
      cross_sectional_standardize df c = .ok w →
      grp = someVals (df.rows.filter (fun q => q.date == D)) →
      2 ≤ grp.length →
      sampleVar grp ≠ some 0 →
      (∀ r ∈ df.rows, r.date = D → ∀ x : ℝ, r.value = some x →
        (⟨r.symbol, r.date, some ((x - grp.sum / grp.length) /
            Real.sqrt ((grp.map (fun y => (y - grp.sum / grp.length) ^ 2)).sum /
              ((grp.length : ℝ) - 1)))⟩ : FRow) ∈ w.rows) ∧
      meanList (someVals (w.rows.filter (fun q => q.date == D))) = some 0 ∧
      sampleStd (someVals (w.rows.filter (fun q => q.date == D))) = some 1) ∧
    cross_sectional_standardize tripleFPanel "value" =
      .ok ⟨"value", [⟨"A", 0, some (-1)⟩, ⟨"B", 0, some 0⟩, ⟨"C", 0, some 1⟩]⟩ := by
  refine ⟨?_, css_triple_eval⟩
  intro df c D w grp hok hgrp hlen hvar
  have hw : w = ⟨c, df.rows.map (zscoreRow df.rows)⟩ := by
    by_cases hcol : df.colName = c
    · simp only [cross_sectional_standardize, hcol, if_true, Except.ok.injEq] at hok
      exact hok.symm
    · simp [cross_sectional_standardize, hcol] at hok
  have hlen' : ¬ grp.length < 2 := by omega
  have hden : ((grp.length : ℝ) - 1) ≠ 0 := by
    have : (2 : ℝ) ≤ (grp.length : ℝ) := by exact_mod_cast hlen
    linarith
  have hnzero : (grp.length : ℝ) ≠ 0 := by
    have : (2 : ℝ) ≤ (grp.length : ℝ) := by exact_mod_cast hlen
    linarith
  have hvcomp : sampleVar grp =
      some ((grp.map (fun y => (y - grp.sum / grp.length) ^ 2)).sum /
        ((grp.length : ℝ) - 1)) := by
    unfold sampleVar
    rw [if_neg hlen']
  set μ : ℝ := grp.sum / grp.length with hμdef
  set S : ℝ := (grp.map (fun y => (y - μ) ^ 2)).sum with hSdef
  set v : ℝ := S / ((grp.length : ℝ) - 1) with hvdef
  have hS0 : 0 ≤ S := list_sum_sq_nonneg grp μ
  have hv0 : 0 ≤ v := div_nonneg hS0 (by
    have : (2 : ℝ) ≤ (grp.length : ℝ) := by exact_mod_cast hlen
    linarith)
  have hvne : v ≠ 0 := by
    intro hc
    exact hvar (hvcomp.trans (by rw [hc]))
  have hvpos : 0 < v := lt_of_le_of_ne hv0 (Ne.symm hvne)
  have hσpos : 0 < Real.sqrt v := Real.sqrt_pos.mpr hvpos
  have hσne : Real.sqrt v ≠ 0 := ne_of_gt hσpos
  have hσsq : Real.sqrt v ^ 2 = v := Real.sq_sqrt hv0
  have hσ : sampleStd grp = some (Real.sqrt v) := by
    unfold sampleStd
    rw [hvcomp]
    rfl
  have hμ : meanList grp = some μ := by
    unfold meanList
    rw [if_neg (by omega), hμdef]
  have hμ' : meanList (someVals (df.rows.filter (fun q => q.date == D))) = some μ := by
    rw [← hgrp]; exact hμ
  have hσ' : sampleStd (someVals (df.rows.filter (fun q => q.date == D))) =
      some (Real.sqrt v) := by
    rw [← hgrp]; exact hσ
  have hSne : S ≠ 0 := by
    intro hc
    exact hvne (by rw [hvdef, hc, zero_div])
  refine ⟨?_, ?_⟩
  · intro r hr hD x hx
    rw [hw]
    refine List.mem_map.mpr ⟨r, hr, ?_⟩
    have hval : (zscoreRow df.rows r).value = some ((x - μ) / Real.sqrt v) := by
      simp only [zscoreRow, zscoreRes]
      rw [hD, hμ', hσ', hx]
      simp [zRes, ieeeDivRes, FRes.toOpt, hσne]
    have hsym : (zscoreRow df.rows r).symbol = r.symbol := rfl
    have hdate : (zscoreRow df.rows r).date = r.date := rfl
    cases hzr : zscoreRow df.rows r with
    | mk a b val =>
      rw [hzr] at hval hsym hdate
      simp only at hval hsym hdate
      rw [hval, hsym, hdate]
  · have hfil : w.rows.filter (fun q => q.date == D) =
        (df.rows.filter (fun q => q.date == D)).map (zscoreRow df.rows) := by
      rw [hw]
      exact filter_date_map_zscore df.rows D df.rows
    have hallD : ∀ r ∈ df.rows.filter (fun q : FRow => q.date == D), r.date = D := by
      intro r hrf
      have := (List.mem_filter.mp hrf).2
      simpa using this
    have hzs : someVals (w.rows.filter (fun q => q.date == D)) =
        grp.map (fun x => (x - μ) / Real.sqrt v) := by
      rw [hfil, someVals_zscore_map df.rows D μ (Real.sqrt v) hμ' hσ' hσne _ hallD,
        ← hgrp]
    have hzsum : (grp.map (fun x => (x - μ) / Real.sqrt v)).sum = 0 := by
      rw [list_sum_map_div grp (fun x => x - μ) (Real.sqrt v), list_sum_map_sub]
      have : grp.sum - (grp.length : ℝ) * μ = 0 := by
        rw [hμdef]
        field_simp
      rw [this, zero_div]
    have hzlen : (grp.map (fun x => (x - μ) / Real.sqrt v)).length = grp.length :=
      List.length_map _ _
    constructor
    · rw [hzs]
      unfold meanList
      rw [if_neg (by rw [hzlen]; omega), hzsum, zero_div]
    · rw [hzs]
      unfold sampleStd sampleVar
      rw [if_neg (by rw [hzlen]; omega)]
      rw [hzlen, hzsum, zero_div]
      have hsq : ((grp.map (fun x => (x - μ) / Real.sqrt v)).map
          (fun y => (y - 0) ^ 2)).sum = S / v := by
        rw [List.map_map]
        have hcomp : ((fun y => (y - 0) ^ 2) ∘ fun x => (x - μ) / Real.sqrt v) =
            fun x => ((x - μ) / Real.sqrt v) ^ 2 := by
          funext y
          simp
        rw [hcomp, list_sum_map_sq_div, hσsq, ← hSdef]
      rw [hsq]
      have hfin : S / v / ((grp.length : ℝ) - 1) = 1 := by
        rw [hvdef]
        field_simp
      rw [hfin]
      simp [Real.sqrt_one]

/-- Witness for C4: the 1-2-3 panel has mean 0 and sample standard
deviation 1 after standardization. -/
theorem cross_sectional_standardize_zscore_witness :
    meanList (someVals ((FPanel.rows ⟨"value",
        [⟨"A", 0, some (-1)⟩, ⟨"B", 0, some 0⟩, ⟨"C", 0, some 1⟩]⟩).filter
      (fun q => q.date == 0))) = some 0 ∧
    sampleStd (someVals ((FPanel.rows ⟨"value",
        [⟨"A", 0, some (-1)⟩, ⟨"B", 0, some 0⟩, ⟨"C", 0, some 1⟩]⟩).filter
      (fun q => q.date == 0))) = some 1 :=
  (cross_sectional_standardize_zscore.1 tripleFPanel "value" 0 _ [1, 2, 3]
    cross_sectional_standardize_zscore.2
    (by norm_num [tripleFPanel, someVals, List.filterMap])
    (by norm_num)
    (by unfold sampleVar; norm_num)).2

/-- Monotone indexing into a sorted list through getD. -/
lemma sorted_getD_mono {s : List ℝ} (hs : s.Sorted (· ≤ ·)) {i j : ℕ}
    (hij : i ≤ j) (hj : j < s.length) : s.getD i 0 ≤ s.getD j 0 := by
  have hi : i < s.length := Nat.lt_of_le_of_lt hij hj
  rw [List.getD_eq_getElem?_getD, List.getD_eq_getElem?_getD,
    List.getElem?_eq_getElem hi, List.getElem?_eq_getElem hj]
  simp only [Option.getD_some]
  rcases Nat.eq_or_lt_of_le hij with heq | hlt
  · subst heq; exact le_refl _
  · have := hs.rel_get_of_lt (a := ⟨i, hi⟩) (b := ⟨j, hj⟩) (Fin.mk_lt_mk.mpr hlt)
    simpa using this

/-- Monotonicity of the linear-interpolation quantile in the percentile:
the quantile at a smaller percentile of the same data never exceeds the
quantile at a larger one. -/
lemma quantileLinear_mono (xs : List ℝ) {p q a b : ℝ}
    (h0 : 0 ≤ p) (hpq : p ≤ q) (h1 : q ≤ 1)
    (ha : quantileLinear xs p = some a) (hb : quantileLinear xs q = some b) :
    a ≤ b := by
  simp only [quantileLinear] at ha hb
  set s := List.insertionSort (· ≤ ·) xs with hsdef
  set n := s.length with hndef
  by_cases hn : n = 0
  · rw [if_pos hn] at ha
    exact absurd ha (by simp)
  · rw [if_neg hn] at ha hb
    have hn1 : 1 ≤ n := Nat.pos_of_ne_zero hn
    have hs : s.Sorted (· ≤ ·) := by
      rw [hsdef]; exact List.sorted_insertionSort _ _
    have hnr : (1 : ℝ) ≤ (n : ℝ) := by exact_mod_cast hn1
    set pp := p * ((n : ℝ) - 1) with hppdef
    set qq := q * ((n : ℝ) - 1) with hqqdef
    have hpp0 : 0 ≤ pp := mul_nonneg h0 (by linarith)
    have hppqq : pp ≤ qq := by
      rw [hppdef, hqqdef]
      apply mul_le_mul_of_nonneg_right hpq
      linarith
    have hqq0 : 0 ≤ qq := le_trans hpp0 hppqq
    have hqq1 : qq ≤ (n : ℝ) - 1 := by
      rw [hqqdef]
      nlinarith
    set lp := ⌊pp⌋₊ with hlpdef
    set lq := ⌊qq⌋₊ with hlqdef
    have hlpq : lp ≤ lq := Nat.floor_mono hppqq
    have hlqn : lq ≤ n - 1 := by
      have hm := Nat.floor_mono hqq1
      rwa [show ((n : ℝ) - 1) = ((n - 1 : ℕ) : ℝ) by
          rw [Nat.cast_sub hn1]; norm_num,
        Nat.floor_natCast] at hm
    have hlpn : lp ≤ n - 1 := le_trans hlpq hlqn
    have hup : min (lp + 1) (n - 1) < n := by omega
    have huq : min (lq + 1) (n - 1) < n := by omega
    have hlq_lt : lq < n := by omega
    have hfp0 : 0 ≤ pp - (lp : ℝ) := by
      have := Nat.floor_le hpp0
      rw [← hlpdef] at this
      linarith
    have hfp1 : pp - (lp : ℝ) < 1 := by
      have := Nat.lt_floor_add_one pp
      rw [← hlpdef] at this
      linarith
    have hfq0 : 0 ≤ qq - (lq : ℝ) := by
      have := Nat.floor_le hqq0
      rw [← hlqdef] at this
      linarith
    have haeq : a = s.getD lp 0 +
        (pp - (lp : ℝ)) * (s.getD (min (lp + 1) (n - 1)) 0 - s.getD lp 0) :=
      (Option.some.inj ha).symm
    have hbeq : b = s.getD lq 0 +
        (qq - (lq : ℝ)) * (s.getD (min (lq + 1) (n - 1)) 0 - s.getD lq 0) :=
      (Option.some.inj hb).symm
    have h_l_u_p : s.getD lp 0 ≤ s.getD (min (lp + 1) (n - 1)) 0 :=
      sorted_getD_mono hs (by omega) (by rw [← hndef]; omega)
    have h_l_u_q : s.getD lq 0 ≤ s.getD (min (lq + 1) (n - 1)) 0 :=
      sorted_getD_mono hs (by omega) (by rw [← hndef]; omega)
    rcases Nat.eq_or_lt_of_le hlpq with heq | hlt
    · rw [haeq, hbeq, ← heq]
      have hmono := mul_le_mul_of_nonneg_right
        (by linarith : pp - (lp : ℝ) ≤ qq - (lp : ℝ))
        (by linarith : (0 : ℝ) ≤ s.getD (min (lp + 1) (n - 1)) 0 - s.getD lp 0)
      linarith
    · have hup_le : min (lp + 1) (n - 1) ≤ lq := by omega
      have hmid : s.getD (min (lp + 1) (n - 1)) 0 ≤ s.getD lq 0 :=
        sorted_getD_mono hs hup_le (by rw [← hndef]; omega)
      have hab : a ≤ s.getD (min (lp + 1) (n - 1)) 0 := by
        rw [haeq]
        have := mul_nonneg
          (by linarith : (0 : ℝ) ≤ 1 - (pp - (lp : ℝ)))
          (by linarith : (0 : ℝ) ≤ s.getD (min (lp + 1) (n - 1)) 0 - s.getD lp 0)
        nlinarith
      have hbb : s.getD lq 0 ≤ b := by
        rw [hbeq]
        have := mul_nonneg hfq0
          (by linarith : (0 : ℝ) ≤ s.getD (min (lq + 1) (n - 1)) 0 - s.getD lq 0)
        linarith
      linarith

/-- First winsorization pass on the 0-100 panel with the 1 and 99 percent
bounds: quantiles 1 and 99, both rows clipped. -/
lemma win_pair_eval :
    winsorize pairFPanel "v" 0.01 0.99 =
      .ok ⟨"v", [⟨"A", 0, some 1⟩, ⟨"B", 0, some 99⟩]⟩ := by
  have h1 : quantileLinear [(0 : ℝ), 100] (1 / 100) = some 1 := by
    rw [quantileLinear_pair] <;> norm_num
  have h2 : quantileLinear [(0 : ℝ), 100] (99 / 100) = some 99 := by
    rw [quantileLinear_pair] <;> norm_num
  norm_num [winsorize, winsorizeRow, pairFPanel, someVals, List.filterMap, h1, h2]

/-- Second winsorization pass on the already-clipped values 1 and 99: the
quantiles are recomputed on the clipped data, giving the strictly tighter
bounds 1.98 and 98.02, so both rows move again. -/
lemma win_pair_eval2 :
    winsorize ⟨"v", [⟨"A", 0, some 1⟩, ⟨"B", 0, some 99⟩]⟩ "v" 0.01 0.99 =
      .ok ⟨"v", [⟨"A", 0, some 1.98⟩, ⟨"B", 0, some 98.02⟩]⟩ := by
  have h1 : quantileLinear [(1 : ℝ), 99] (1 / 100) = some 1.98 := by
    rw [quantileLinear_pair] <;> norm_num
  have h2 : quantileLinear [(1 : ℝ), 99] (99 / 100) = some 98.02 := by
    rw [quantileLinear_pair] <;> norm_num
  norm_num [winsorize, winsorizeRow, someVals, List.filterMap, h1, h2]

/-- C9 counterexample: winsorizing the one-date values 0 and 100 at the
1 and 99 percent bounds gives 1 and 99, but winsorizing a second time
with the same bounds recomputes the quantiles on the clipped data and
gives 1.98 and 98.02: applying winsorize twice does not equal applying it
once. -/
theorem winsorize_idempotence_counterexample :
    winsorize pairFPanel "v" 0.01 0.99 =
      .ok ⟨"v", [⟨"A", 0, some 1⟩, ⟨"B", 0, some 99⟩]⟩ ∧
    winsorize ⟨"v", [⟨"A", 0, some 1⟩, ⟨"B", 0, some 99⟩]⟩ "v" 0.01 0.99 =
      .ok ⟨"v", [⟨"A", 0, some 1.98⟩, ⟨"B", 0, some 98.02⟩]⟩ ∧
    winsorize ⟨"v", [⟨"A", 0, some 1⟩, ⟨"B", 0, some 99⟩]⟩ "v" 0.01 0.99 ≠
      .ok ⟨"v", [⟨"A", 0, some 1⟩, ⟨"B", 0, some 99⟩]⟩ := by
  refine ⟨win_pair_eval, win_pair_eval2, ?_⟩
  rw [win_pair_eval2]
  intro hcon
  have := Except.ok.inj hcon
  simp only [FPanel.mk.injEq, List.cons.injEq, FRow.mk.injEq, true_and] at this
  exact absurd this.1 (by norm_num)

/-- C9 (corrected): winsorize boundedness.  Under ordered percentile
bounds, the per-date lower quantile never exceeds the upper one, every
clipped value lies within the two quantiles of its own date, values
already inside the bounds are returned unchanged, and every output row is
the clip of the corresponding input row.  (The idempotence part of the
original claim is false: a second pass recomputes the quantiles on the
clipped data, see the counterexample.) -/
theorem winsorize_bounds_amended (df : FPanel) (c : String) (pl ph : ℝ)
    (w : FPanel) (h0 : 0 ≤ pl) (hlh : pl ≤ ph) (h1 : ph ≤ 1)
    (hok : winsorize df c pl ph = .ok w) :
    ∀ r ∈ df.rows, ∀ grp : List ℝ, ∀ qlo qhi : ℝ,
      grp = someVals (df.rows.filter (fun q => q.date == r.date)) →
      quantileLinear grp pl = some qlo →
      quantileLinear grp ph = some qhi →
      qlo ≤ qhi ∧
      winsorizeRow df.rows pl ph r ∈ w.rows ∧
      ∀ x : ℝ, r.value = some x →
        (winsorizeRow df.rows pl ph r).value =
          some (if x < qlo then qlo else if qhi < x then qhi else x) ∧
        qlo ≤ (if x < qlo then qlo else if qhi < x then qhi else x) ∧
        (if x < qlo then qlo else if qhi < x then qhi else x) ≤ qhi ∧
        (qlo ≤ x → x ≤ qhi → (winsorizeRow df.rows pl ph r).value = some x) := by
  intro r hr grp qlo qhi hgrp hqlo hqhi
  have hw : w = ⟨c, df.rows.map (winsorizeRow df.rows pl ph)⟩ := by
    by_cases hcol : df.colName = c
    · have hrange : 0 ≤ pl ∧ pl ≤ 1 ∧ 0 ≤ ph ∧ ph ≤ 1 :=
        ⟨h0, le_trans hlh h1, le_trans h0 hlh, h1⟩
      unfold winsorize at hok
      rw [if_pos hcol, if_pos hrange] at hok
      exact (Except.ok.inj hok).symm
    · simp [winsorize, hcol] at hok
  have hq : qlo ≤ qhi := quantileLinear_mono grp h0 hlh h1 hqlo hqhi
  have hmem : winsorizeRow df.rows pl ph r ∈ w.rows := by
    rw [hw]
    exact List.mem_map_of_mem _ hr
  refine ⟨hq, hmem, ?_⟩
  intro x hx
  have hval : (winsorizeRow df.rows pl ph r).value =
      some (if x < qlo then qlo else if qhi < x then qhi else x) := by
    simp only [winsorizeRow]
    rw [← hgrp, hx, hqlo, hqhi]
  refine ⟨hval, ?_, ?_, ?_⟩
  · split_ifs with hc1 hc2 <;> linarith
  · split_ifs with hc1 hc2 <;> linarith
  · intro hxlo hxhi
    rw [hval, if_neg (by linarith), if_neg (by linarith)]

/-- Witness for the amended C9: the 0-100 pair at the 1 and 99 percent
bounds, instantiated at the first row. -/
theorem winsorize_bounds_amended_witness :
    (1 : ℝ) ≤ 99 ∧
    winsorizeRow pairFPanel.rows 0.01 0.99 ⟨"A", 0, some 0⟩ ∈
      FPanel.rows ⟨"v", [⟨"A", 0, some 1⟩, ⟨"B", 0, some 99⟩]⟩ ∧
    ∀ x : ℝ, (FRow.value ⟨"A", 0, some 0⟩ : Option ℝ) = some x →
      (winsorizeRow pairFPanel.rows 0.01 0.99 ⟨"A", 0, some 0⟩).value =
        some (if x < 1 then 1 else if 99 < x then 99 else x) ∧
      (1 : ℝ) ≤ (if x < 1 then 1 else if 99 < x then 99 else x) ∧
      (if x < (1 : ℝ) then 1 else if 99 < x then 99 else x) ≤ 99 ∧
      ((1 : ℝ) ≤ x → x ≤ 99 →
        (winsorizeRow pairFPanel.rows 0.01 0.99 ⟨"A", 0, some 0⟩).value = some x) :=
  winsorize_bounds_amended pairFPanel "v" 0.01 0.99 _
    (by norm_num) (by norm_num) (by norm_num) win_pair_eval
    ⟨"A", 0, some 0⟩ (by simp [pairFPanel]) [0, 100] 1 99
    (by norm_num [pairFPanel, someVals, List.filterMap])
    (by rw [quantileLinear_pair] <;> norm_num)
    (by rw [quantileLinear_pair] <;> norm_num)

/-- The standardized per-factor result carries the factor name as its
value column. -/
lemma compute_colName (f : Factor) (data : Panel) (d : ℕ) (fp : FPanel)
    (h : f.compute data d = .ok fp) : fp.colName = f.name := by
  unfold Factor.compute at h
  cases hraw : f.compute_raw data d with
  | error e => rw [hraw] at h; simp [Except.bind] at h
  | ok raw =>
    rw [hraw] at h
    simp only [Except.bind] at h
    unfold cross_sectional_standardize at h
    by_cases hcol : raw.colName = f.name
    · rw [if_pos hcol] at h
      rw [← Except.ok.inj h]
    · rw [if_neg hcol] at h
      exact absurd h (by simp)

/-- Invariant of the compute_all fold: after joining the processed
factors, the wide panel has one named column per processed factor, and
every row carries, for each processed factor, the value of a row of that
factor's own standardized output with the same symbol and date. -/
def WInv (data : Panel) (d : ℕ) (processed : List Factor) (w : WPanel) : Prop :=
  w.colNames = processed.map Factor.name ∧
  ∀ r ∈ w.rows, r.values.length = processed.length ∧
    ∀ i, i < processed.length →
      ∃ fp : FPanel, ∃ q : FRow,
        (processed.getD i (.assetGrowth 4)).compute data d = .ok fp ∧
        q ∈ fp.rows ∧ q.symbol = r.symbol ∧ q.date = r.date ∧
        r.values.getD i none = q.value

/-- The invariant holds after the first factor result is widened. -/
lemma WInv_first (data : Panel) (d : ℕ) (f : Factor) (fd : FPanel)
    (hc : f.compute data d = .ok fd) :
    WInv data d [f]
      ⟨[fd.colName], fd.rows.map (fun r => ⟨r.symbol, r.date, [r.value]⟩)⟩ := by
  constructor
  · simp [compute_colName f data d fd hc]
  · intro r hr
    simp only [List.mem_map] at hr
    obtain ⟨q, hq, hqr⟩ := hr
    subst hqr
    refine ⟨by simp, ?_⟩
    intro i hi
    simp only [List.length_cons, List.length_nil] at hi
    have hi0 : i = 0 := by omega
    subst hi0
    exact ⟨fd, q, hc, hq, rfl, rfl, rfl⟩

/-- The invariant is preserved by one inner join. -/
lemma WInv_innerJoin (data : Panel) (d : ℕ) (processed : List Factor)
    (w0 : WPanel) (f : Factor) (fd : FPanel)
    (hinv : WInv data d processed w0) (hc : f.compute data d = .ok fd) :
    WInv data d (processed ++ [f]) (innerJoin w0 fd) := by
  obtain ⟨hcols, hrows⟩ := hinv
  constructor
  · simp [innerJoin, hcols, compute_colName f data d fd hc]
  · intro r hr
    simp only [innerJoin, List.mem_flatMap, List.mem_map, List.mem_filter] at hr
    obtain ⟨wr, hwr, fr, ⟨hfrmem, hfrkey⟩, hreq⟩ := hr
    have hkey : fr.symbol = wr.symbol ∧ fr.date = wr.date := by
      simpa using hfrkey
    obtain ⟨hlen, hidx⟩ := hrows wr hwr
    subst hreq
    dsimp only
    constructor
    · simp [hlen]
    · intro i hi
      rw [List.length_append, List.length_cons, List.length_nil] at hi
      by_cases hilt : i < processed.length
      · obtain ⟨fp, q, hfp, hq, hqs, hqd, hval⟩ := hidx i hilt
        refine ⟨fp, q, ?_, hq, hqs, hqd, ?_⟩
        · rwa [List.getD_append _ _ _ _ hilt]
        · rw [List.getD_append _ _ _ _ (by rw [hlen]; exact hilt)]
          exact hval
      · have hieq : i = processed.length := by omega
        subst hieq
        refine ⟨fd, fr, ?_, hfrmem, hkey.1, hkey.2, ?_⟩
        · rw [List.getD_append_right _ _ _ _ (le_refl _), Nat.sub_self]
          exact hc
        · rw [List.getD_append_right _ _ _ _ (by rw [hlen]), hlen, Nat.sub_self]
          rfl

/-- The invariant propagates through the fold. -/
lemma computeAllAux_inv (data : Panel) (d : ℕ) :
    ∀ (fs processed : List Factor) (w0 w : WPanel),
      WInv data d processed w0 →
      computeAllAux data d (some w0) fs = .ok (some w) →
      WInv data d (processed ++ fs) w := by
  intro fs
  induction fs with
  | nil =>
    intro processed w0 w hinv hok
    simp only [computeAllAux, Except.ok.injEq, Option.some.injEq] at hok
    subst hok
    simpa using hinv
  | cons f fs ih =>
    intro processed w0 w hinv hok
    simp only [computeAllAux] at hok
    cases hc : f.compute data d with
    | error e => rw [hc] at hok; exact absurd hok (by simp)
    | ok fd =>
      rw [hc] at hok
      simp only at hok
      have hstep := WInv_innerJoin data d processed w0 f fd hinv hc
      have := ih (processed ++ [f]) (innerJoin w0 fd) w hstep hok
      rwa [List.append_assoc, List.singleton_append] at this

/-- C7 (confirmed): compute_all inner-join completeness.  A successful
compute_all over a non-empty registry returns a wide panel with one value
column per registered factor in registry order; every row carries exactly
one value entry per factor, each entry equal to the value of a row of that
factor's own standardized output with the same symbol and date (the join
itself introduces no nulls); and a symbol absent from even one factor's
output is absent from the whole combined result. -/
theorem compute_all_inner_join_complete
    (registry : List Factor) (data : Panel) (d : ℕ) (w : WPanel)
    (hne : registry ≠ [])
    (hok : compute_all registry data d = .ok w) :
    w.colNames = registry.map Factor.name ∧
    (∀ r ∈ w.rows, r.values.length = registry.length) ∧
    (∀ r ∈ w.rows, ∀ i, i < registry.length →
      ∃ fp : FPanel, ∃ q : FRow,
        (registry.getD i (.assetGrowth 4)).compute data d = .ok fp ∧
        q ∈ fp.rows ∧ q.symbol = r.symbol ∧ q.date = r.date ∧
        r.values.getD i none = q.value) ∧
    (∀ i, i < registry.length → ∀ fp : FPanel,
      (registry.getD i (.assetGrowth 4)).compute data d = .ok fp →
      ∀ s : String, (∀ q ∈ fp.rows, q.symbol ≠ s) →
        ∀ r ∈ w.rows, r.symbol ≠ s) := by
  obtain ⟨f, fs, rfl⟩ : ∃ f fs, registry = f :: fs := by
    cases registry with
    | nil => exact absurd rfl hne
    | cons f fs => exact ⟨f, fs, rfl⟩
  unfold compute_all at hok
  simp only [computeAllAux] at hok
  cases hc : f.compute data d with
  | error e => rw [hc] at hok; exact absurd hok (by simp)
  | ok fd =>
    rw [hc] at hok
    simp only at hok
    cases haux : computeAllAux data d
        (some ⟨[fd.colName], fd.rows.map (fun r => ⟨r.symbol, r.date, [r.value]⟩)⟩)
        fs with
    | error e => rw [haux] at hok; exact absurd hok (by simp)
    | ok o =>
      cases o with
      | none => rw [haux] at hok; exact absurd hok (by simp)
      | some w' =>
        rw [haux] at hok
        simp only [Except.ok.injEq] at hok
        subst hok
        have hinv := computeAllAux_inv data d fs [f] _ w'
          (WInv_first data d f fd hc) haux
        rw [List.singleton_append] at hinv
        obtain ⟨hcols, hrows⟩ := hinv
        refine ⟨hcols, ?_, ?_, ?_⟩
        · intro r hr; exact (hrows r hr).1
        · intro r hr; exact (hrows r hr).2
        · intro i hi fp hfp s hmiss r hr hcontra
          obtain ⟨fp', q, hfp', hq, hqs, _, _⟩ := (hrows r hr).2 i hi
          have hfpeq : fp' = fp := Except.ok.inj (hfp'.symm.trans hfp)
          subst hfpeq
          exact hmiss q hq (hqs.trans hcontra)

/-- Evaluation of the standardized asset growth on the scenario panel: the
single-symbol cross-section is degenerate, so the value is missing but the
row is kept. -/
lemma ag_compute_eval :
    (Factor.assetGrowth 4).compute aaplPanel 4 =
      .ok ⟨"asset_growth", [⟨"AAPL", 4, none⟩]⟩ := by
  unfold Factor.compute
  rw [show Factor.compute_raw (.assetGrowth 4) = assetGrowthComputeRaw 4 from rfl,
    ag_scenario_eval4]
  norm_num [Except.bind, cross_sectional_standardize, zscoreRow, zscoreRes,
    someVals, List.filterMap, meanList, sampleVar, sampleStd, zRes, FRes.toOpt,
    Factor.name]

/-- Evaluation of compute_all on the one-factor registry. -/
lemma compute_all_single_eval :
    compute_all [.assetGrowth 4] aaplPanel 4 =
      .ok ⟨["asset_growth"], [⟨"AAPL", 4, [none]⟩]⟩ := by
  unfold compute_all
  simp [computeAllAux, ag_compute_eval]

/-- Witness for C7: the singleton registry on the scenario panel produces
the one factor column. -/
theorem compute_all_inner_join_complete_witness :
    WPanel.colNames ⟨["asset_growth"], [⟨"AAPL", 4, [none]⟩]⟩ =
      List.map Factor.name [Factor.assetGrowth 4] :=
  (compute_all_inner_join_complete [.assetGrowth 4] aaplPanel 4 _
    (by simp) compute_all_single_eval).1

end Factors
